import Mathlib

/-!
Shallow embedding of the stack-stack crate (src/src/lib.rs): a fixed-capacity,
array-backed vector `Stack<T, N>` storing `len: usize` and
`data: [MaybeUninit<T>; N]`, plus its consuming iterator `IntoIter<T, N>`.

Modelling conventions:
* A `MaybeUninit<T>` slot is an `Option T`: `none` models bytes that were never
  initialized (`MaybeUninit::uninit()`); `some v` models a slot whose bytes hold
  the value `v`.  Reads that move a value out (`assume_init_read`) leave the
  bytes in place, exactly as in the source, so a popped slot keeps its stale
  `some v` until overwritten - liveness is purely `index < len`.
* The const generic capacity `N` becomes a `cap` field; `data.length = cap` is
  part of the well-formedness predicate `WF`.
* `&mut self` methods become state-passing functions returning
  `(new stack, return value)`.
* A Rust `panic!` (from `check_bounds` / `check_capacity`) is modelled by an
  `Option` result: `none` is the panic, `some` the normal return.
* Reading an uninitialized slot is undefined behaviour in the source; in the
  model such a read yields `none` from `List.getD`.  `WF` rules those reads out.
-/

namespace StackStack

/-- Model of `Stack<T, N>`: `cap` is the const generic `N`, `len` the `len`
field, `data` the `[MaybeUninit<T>; N]` buffer (`none` = uninitialized). -/
structure Stack (T : Type) where
  cap : Nat
  len : Nat
  data : List (Option T)
deriving DecidableEq

namespace Stack

/-- `Stack::new()`: `len = 0`, every slot uninitialized. -/
def new (T : Type) (cap : Nat) : Stack T :=
  ⟨cap, 0, List.replicate cap none⟩

/-- `Stack::from_array(array)`: `len = N`, every slot initialized from the
array. -/
def from_array {T : Type} (array : List T) : Stack T :=
  ⟨array.length, array.length, array.map some⟩

/-- `Stack::len()`. -/
def length {T : Type} (s : Stack T) : Nat := s.len

/-- `Stack::capacity()`: the const generic `N`. -/
def capacity {T : Type} (s : Stack T) : Nat := s.cap

/-- `Stack::is_empty()`: `len == 0`. -/
def is_empty {T : Type} (s : Stack T) : Bool := s.len == 0

/-- `Stack::is_full()`: `len >= capacity`. -/
def is_full {T : Type} (s : Stack T) : Bool := s.len ≥ s.cap

/-- `Stack::as_slice()`: the initialized prefix `[0, len)` of the buffer
(still at the `Option` level; under `WF` every entry is `some`). -/
def as_slice {T : Type} (s : Stack T) : List (Option T) := s.data.take s.len

/-- `Stack::truncate(len)`: `target = min(self.len, len)`; both the
`needs_drop` loop of pops and the `set_len` shortcut leave the buffer bytes
unchanged and set `len = target`. -/
def truncate {T : Type} (s : Stack T) (n : Nat) : Stack T :=
  { s with len := min s.len n }

/-- `Stack::using_array(array, len)`: panics (`none`) when `len > N`,
otherwise `from_array` followed by `truncate` (via
`using_array_unchecked`). -/
def using_array {T : Type} (array : List T) (n : Nat) : Option (Stack T) :=
  if n > array.length then none
  else some ((from_array array).truncate n)

/-- `Stack::check_bounds(index, op)`: `true` when the check passes, `false`
when the source panics (`index >= self.len()`).  The `op` string only feeds
the panic message and is dropped. -/
def check_bounds {T : Type} (s : Stack T) (index : Nat) : Bool :=
  !(index ≥ s.len)

/-- `Stack::check_capacity(size, op)`: `true` when the check passes, `false`
when the source panics (`size > self.capacity()`). -/
def check_capacity {T : Type} (s : Stack T) (size : Nat) : Bool :=
  !(size > s.cap)

/-- `Stack::push(x)`: on a full stack returns `Err(x)` (`some x` here) and
leaves the stack untouched; otherwise writes `x` at index `len` and
increments `len`, returning `Ok(())` (`none` here). -/
def push {T : Type} (s : Stack T) (x : T) : Stack T × Option T :=
  if s.is_full then (s, some x)
  else ({ s with data := s.data.set s.len (some x), len := s.len + 1 }, none)

/-- `Stack::pop()`: on an empty stack returns `None` and leaves the stack
untouched; otherwise decrements `len` and reads the value at the new `len`
(the bytes stay in the slot, as in the source). -/
def pop {T : Type} (s : Stack T) : Stack T × Option T :=
  if s.is_empty then (s, none)
  else ({ s with len := s.len - 1 }, s.data.getD (s.len - 1) none)

/-- `Stack::swap_remove(index)`: after `check_bounds`, reads the value at
`index`, decrements `len`, and copies the slot at the new `len` (the old last
slot) over slot `index`. -/
def swap_remove {T : Type} (s : Stack T) (index : Nat) :
    Option (Stack T × Option T) :=
  if s.check_bounds index then
    some ({ s with len := s.len - 1,
                   data := s.data.set index (s.data.getD (s.len - 1) none) },
          s.data.getD index none)
  else none

/-- The `for i in index..self.len() { swap(&mut self.data[i], &mut temp) }`
loop of `Stack::insert`, with `fuel = len - index` iterations. -/
def swap_loop {T : Type} (data : List (Option T)) (temp : Option T)
    (i : Nat) : Nat → List (Option T) × Option T
  | 0 => (data, temp)
  | fuel + 1 => swap_loop (data.set i temp) (data.getD i none) (i + 1) fuel

/-- `Stack::insert(index, element)`: after `check_bounds` (which panics when
`index >= len`, so `none` then), swaps `element` rightwards through
`[index, len)`; if the stack is full the displaced last element is returned
as `Some`, otherwise it is written at `len` and `len` increments. -/
def insert {T : Type} (s : Stack T) (index : Nat) (element : T) :
    Option (Stack T × Option T) :=
  if s.check_bounds index then
    let p := swap_loop s.data (some element) index (s.len - index)
    if s.is_full then
      some ({ s with data := p.1 }, p.2)
    else
      some ({ s with data := p.1.set s.len p.2, len := s.len + 1 }, none)
  else none

/-- The `for i in index+1..self.len()` copy loop of `Stack::remove`:
each step copies slot `i` down to slot `i - 1`. -/
def shift_loop {T : Type} (data : List (Option T)) (i : Nat) :
    Nat → List (Option T)
  | 0 => data
  | fuel + 1 => shift_loop (data.set (i - 1) (data.getD i none)) (i + 1) fuel

/-- `Stack::remove(index)`: after `check_bounds`, reads the value at `index`,
shifts `[index+1, len)` down one slot, and decrements `len`. -/
def remove {T : Type} (s : Stack T) (index : Nat) :
    Option (Stack T × Option T) :=
  if s.check_bounds index then
    some ({ s with data := shift_loop s.data (index + 1) (s.len - (index + 1)),
                   len := s.len - 1 },
          s.data.getD index none)
  else none

/-- `Stack::clear()`: drops the live elements (no observable buffer change in
the model) and sets `len = 0`. -/
def clear {T : Type} (s : Stack T) : Stack T :=
  { s with len := 0 }

/-- The `while self.len() < new_len { self.push(f()).ok(); }` loop of
`Stack::resize_with`.  The stateful `FnMut` closure is modelled by indexing
its successive results: the k-th call returns `f k`.  `fuel` bounds the
iteration count; `resize_with` passes `new_len - len`, which is exact because
every push in range succeeds once `check_capacity` has passed. -/
def fill_loop {T : Type} (new_len : Nat) (f : Nat → T) :
    Stack T → Nat → Nat → Stack T
  | s, _, 0 => s
  | s, k, fuel + 1 =>
    if s.len < new_len then fill_loop new_len f (s.push (f k)).1 (k + 1) fuel
    else s

/-- `Stack::resize_with(new_len, f)`: `check_capacity` first (panic = `none`,
before any mutation), then truncate when `new_len < len`, else push `f`
results until `len = new_len`. -/
def resize_with {T : Type} (s : Stack T) (new_len : Nat) (f : Nat → T) :
    Option (Stack T) :=
  if s.check_capacity new_len then
    some (if new_len < s.len then s.truncate new_len
          else fill_loop new_len f s 0 (new_len - s.len))
  else none

/-- `Stack::resize(new_len, x)`: delegates to `resize_with` with a closure
cloning `x` on every call. -/
def resize {T : Type} (s : Stack T) (new_len : Nat) (x : T) : Option (Stack T) :=
  s.resize_with new_len (fun _ => x)

/-- `Stack::extend_from_slice(other)`: repeatedly splits off the first
element and pushes a clone of it; a failing push returns `Err(other)` with
the stack as mutated so far (push leaves it unchanged on failure). -/
def extend_from_slice {T : Type} (s : Stack T) :
    List T → Stack T × Option (List T)
  | [] => (s, none)
  | first :: rest =>
    match s.push first with
    | (s1, none) => extend_from_slice s1 rest
    | (s1, some _) => (s1, some (first :: rest))

/-- `Stack::extend_from_iter(iter)`: the iterator is modelled as the finite
list of elements it has yet to yield.  Each loop iteration first tests
`is_full` (returning `Err(iter)` if so), then pulls the next element and
pushes it, or returns `Ok(())` when the iterator is exhausted. -/
def extend_from_iter {T : Type} (s : Stack T) (iter : List T) :
    Stack T × Option (List T) :=
  if s.is_full then (s, some iter)
  else
    match iter with
    | [] => (s, none)
    | x :: rest => extend_from_iter (s.push x).1 rest

/-- The `while new.len() < self.len()` loop of `Clone::clone`: pushes
`self[new.len()].clone()` until the lengths agree.  `fuel = self.len` bounds
the loop; the read of an uninitialized slot (UB in the source) halts the
model. -/
def clone_loop {T : Type} (s : Stack T) : Stack T → Nat → Stack T
  | acc, 0 => acc
  | acc, fuel + 1 =>
    if acc.len < s.len then
      match s.data.getD acc.len none with
      | some x => clone_loop s (acc.push x).1 fuel
      | none => acc
    else acc

/-- `Clone::clone for Stack<T, N>`: starts from `Stack::new()` (same
capacity `N`) and pushes clones of the live elements in order. -/
def clone {T : Type} (s : Stack T) : Stack T :=
  clone_loop s (new T s.cap) s.len

end Stack

/-- Model of `IntoIter<T, N>`: the field `index` is the front cursor, the
wrapped `stack` provides the back bound through its own `len`. -/
structure IntoIter (T : Type) where
  index : Nat
  stack : Stack T
deriving DecidableEq

/-- `IntoIterator::into_iter for Stack`: wraps the stack with `index = 0`. -/
def Stack.into_iter {T : Type} (s : Stack T) : IntoIter T :=
  ⟨0, s⟩

namespace IntoIter

/-- `IntoIter::remaining()`: `self.stack.len() - self.index` in `usize`
arithmetic (in the source this subtraction underflows when
`index > stack.len`, panicking in debug builds; `Nat` subtraction truncates
to 0 here). -/
def remaining {T : Type} (it : IntoIter T) : Nat :=
  it.stack.len - it.index

/-- `Iterator::next for IntoIter`: terminal when `index >= stack.len`,
otherwise reads the slot at `index` and increments `index` (the stack
`len` is NOT changed). -/
def next {T : Type} (it : IntoIter T) : IntoIter T × Option T :=
  if it.index ≥ it.stack.len then (it, none)
  else ({ it with index := it.index + 1 }, it.stack.data.getD it.index none)

/-- `DoubleEndedIterator::next_back for IntoIter`: delegates to
`Stack::pop`. -/
def next_back {T : Type} (it : IntoIter T) : IntoIter T × Option T :=
  (({ it with stack := it.stack.pop.1 } : IntoIter T), it.stack.pop.2)

/-- `Iterator::size_hint for IntoIter`: `(remaining, Some(remaining))`. -/
def size_hint {T : Type} (it : IntoIter T) : Nat × Option Nat :=
  (it.remaining, some it.remaining)

end IntoIter

/-- Well-formedness of a stack state: the buffer has exactly `cap` slots,
`len ≤ cap`, and every slot of the live region `[0, len)` is initialized. -/
def Stack.WF {T : Type} (s : Stack T) : Prop :=
  s.data.length = s.cap ∧ s.len ≤ s.cap ∧
    ∀ i, i < s.len → (s.data.getD i none).isSome

/-- States reachable from the safe constructors by the safe public
operations of the container (panicking calls produce no successor state). -/
inductive Reachable (T : Type) : Stack T → Prop
  | new (cap : Nat) : Reachable T (Stack.new T cap)
  | from_array (l : List T) : Reachable T (Stack.from_array l)
  | using_array (l : List T) (n : Nat) (s : Stack T) :
      Stack.using_array l n = some s → Reachable T s
  | push (s : Stack T) (x : T) : Reachable T s → Reachable T (s.push x).1
  | pop (s : Stack T) : Reachable T s → Reachable T s.pop.1
  | insert (s : Stack T) (i : Nat) (x : T) (p : Stack T × Option T) :
      Reachable T s → s.insert i x = some p → Reachable T p.1
  | remove (s : Stack T) (i : Nat) (p : Stack T × Option T) :
      Reachable T s → s.remove i = some p → Reachable T p.1
  | swap_remove (s : Stack T) (i : Nat) (p : Stack T × Option T) :
      Reachable T s → s.swap_remove i = some p → Reachable T p.1
  | clear (s : Stack T) : Reachable T s → Reachable T s.clear
  | truncate (s : Stack T) (n : Nat) : Reachable T s → Reachable T (s.truncate n)
  | resize_with (s : Stack T) (n : Nat) (f : Nat → T) (s1 : Stack T) :
      Reachable T s → s.resize_with n f = some s1 → Reachable T s1
  | resize (s : Stack T) (n : Nat) (x : T) (s1 : Stack T) :
      Reachable T s → s.resize n x = some s1 → Reachable T s1
  | extend_from_slice (s : Stack T) (l : List T) :
      Reachable T s → Reachable T (s.extend_from_slice l).1
  | extend_from_iter (s : Stack T) (l : List T) :
      Reachable T s → Reachable T (s.extend_from_iter l).1

/-! ### List helper lemmas -/

theorem getD_set_self {α : Type} (l : List α) (i : Nat) (a d : α)
    (h : i < l.length) : (l.set i a).getD i d = a := by
  induction l generalizing i with
  | nil => simp at h
  | cons x xs ih =>
    cases i with
    | zero => rfl
    | succ n =>
      show (xs.set n a).getD n d = a
      exact ih n (by simpa using h)

theorem getD_set_ne {α : Type} (l : List α) (i j : Nat) (a d : α)
    (h : i ≠ j) : (l.set i a).getD j d = l.getD j d := by
  induction l generalizing i j with
  | nil => rfl
  | cons x xs ih =>
    cases i with
    | zero =>
      cases j with
      | zero => exact absurd rfl h
      | succ m => rfl
    | succ n =>
      cases j with
      | zero => rfl
      | succ m =>
        show (xs.set n a).getD m d = xs.getD m d
        exact ih n m (by omega)

theorem take_set_of_le {α : Type} (l : List α) (i j : Nat) (a : α)
    (h : j ≤ i) : (l.set i a).take j = l.take j := by
  induction l generalizing i j with
  | nil => rfl
  | cons x xs ih =>
    cases i with
    | zero =>
      cases j with
      | zero => rfl
      | succ m => omega
    | succ n =>
      cases j with
      | zero => rfl
      | succ m =>
        show x :: (xs.set n a).take m = x :: xs.take m
        rw [ih n m (by omega)]

theorem take_set_succ {α : Type} (l : List α) (i : Nat) (a : α)
    (h : i < l.length) : (l.set i a).take (i + 1) = l.take i ++ [a] := by
  induction l generalizing i with
  | nil => simp at h
  | cons x xs ih =>
    cases i with
    | zero => rfl
    | succ n =>
      show x :: (xs.set n a).take (n + 1) = x :: (xs.take n ++ [a])
      rw [ih n (by simpa using h)]

theorem take_succ_getD {α : Type} (l : List α) (i : Nat) (d : α)
    (h : i < l.length) : l.take (i + 1) = l.take i ++ [l.getD i d] := by
  induction l generalizing i with
  | nil => simp at h
  | cons x xs ih =>
    cases i with
    | zero => rfl
    | succ n =>
      show x :: xs.take (n + 1) = x :: (xs.take n ++ [xs.getD n d])
      rw [ih n (by simpa using h)]

theorem getD_map_some_isSome {α : Type} (l : List α) (i : Nat)
    (h : i < l.length) : ((l.map some).getD i none).isSome := by
  induction l generalizing i with
  | nil => simp at h
  | cons x xs ih =>
    cases i with
    | zero => rfl
    | succ n =>
      show ((xs.map some).getD n none).isSome
      exact ih n (by simpa using h)

/-! ### C1: bounds check of insert -/

/-- C1: the claim says insert(index, value) is in range whenever
index <= length, in particular inserting at index == length into a non-full
(here: empty, capacity 2) container succeeds.  Evaluating the code: the
shared check_bounds helper rejects index >= len, so insert(0, 7) on the
empty container panics (modelled as none) instead of succeeding. -/
theorem insert_at_length_panics :
    (Stack.new Nat 2).insert 0 7 = none ∧
      (Stack.new Nat 2).is_full = false := by decide

/-! ### C2: counterexample for extend_from_iter on an exact fit -/

/-- C2 counterexample: a container with free space f = 1 and an iterator of
m = 1 elements, so m <= f and the claim requires success (an Ok result,
second component none).  The code checks is_full before pulling from the
iterator, so after the single push fills the stack it returns Err with the
already exhausted iterator: the call fails even though every element was
appended. -/
theorem extend_from_iter_exact_fit_fails :
    ((Stack.new Nat 1).extend_from_iter [5]).2 = some ([] : List Nat) ∧
      ((Stack.new Nat 1).extend_from_iter [5]).2 ≠ none ∧
      ((Stack.new Nat 1).extend_from_iter [5]).1.len = 1 ∧
      (Stack.new Nat 1).cap - (Stack.new Nat 1).len = 1 := by decide

/-! ### C3: the concrete insert/remove scenario -/

/-- C3: on the full capacity-5 container [6,2,8,3,1], insert(2, 10) yields
the contents [6,2,10,8,3] (len still 5) and returns the displaced last
element 1; remove(0) on that state returns 6 and leaves the live prefix
[2,10,8,3] (the slot beyond len keeps its stale bytes, as in the source). -/
theorem insert_remove_scenario :
    (Stack.from_array [6,2,8,3,1]).insert 2 10
        = some (⟨5, 5, [some 6, some 2, some 10, some 8, some 3]⟩, some 1) ∧
      (⟨5, 5, [some 6, some 2, some 10, some 8, some 3]⟩ : Stack Nat).as_slice
        = [6, 2, 10, 8, 3].map some ∧
      (⟨5, 5, [some 6, some 2, some 10, some 8, some 3]⟩ : Stack Nat).remove 0
        = some (⟨5, 4, [some 2, some 10, some 8, some 3, some 3]⟩, some 6) ∧
      (⟨5, 4, [some 2, some 10, some 8, some 3, some 3]⟩ : Stack Nat).as_slice
        = [2, 10, 8, 3].map some := by decide

/-! ### C9: the consuming iterator yields an element twice -/

/-- C9: on the capacity-2 container [1,2], next() yields element 1 and moves
the front cursor to 1 without touching the stack len; next_back() pops and
yields element 2, leaving len = 1.  The front cursor (1) now equals the
container current length (1), so by the claim both directions are terminal;
but next_back() just delegates to pop, which yields element 1 a second time
(a double read of a slot already moved out from the front - for owned
element types this is a double drop).  Afterwards len (0) is below the
cursor (1) and the reported remaining count len - index underflows in the
source. -/
theorem into_iter_back_double_yield :
    (Stack.from_array [1, 2]).into_iter.next
        = (⟨1, ⟨2, 2, [some 1, some 2]⟩⟩, some 1) ∧
      (⟨1, (⟨2, 2, [some 1, some 2]⟩ : Stack Nat)⟩ : IntoIter Nat).next_back
        = (⟨1, ⟨2, 1, [some 1, some 2]⟩⟩, some 2) ∧
      (⟨1, (⟨2, 1, [some 1, some 2]⟩ : Stack Nat)⟩ : IntoIter Nat).next_back
        = (⟨1, ⟨2, 0, [some 1, some 2]⟩⟩, some 1) := by decide


/-! ### C5: push on full and non-full containers -/

/-- C5: pushing into a full container (len >= cap) returns Err with the
value unchanged and leaves the whole container (length and every element)
unchanged; pushing into a non-full container returns Ok, stores the value at
index len, and increments len, preserving the previous live prefix. -/
theorem push_spec {T : Type} (s : Stack T) (x : T) :
    (s.len ≥ s.cap → s.push x = (s, some x)) ∧
    (s.data.length = s.cap → s.len < s.cap →
      s.push x = ({ s with data := s.data.set s.len (some x),
                           len := s.len + 1 }, none) ∧
      (s.push x).1.len = s.len + 1 ∧
      (s.push x).1.data.getD s.len none = some x ∧
      (s.push x).1.as_slice = s.as_slice ++ [some x]) := by
  constructor
  · intro h
    simp [Stack.push, Stack.is_full, h]
  · intro hd hl
    have hf : s.is_full = false := by
      simp [Stack.is_full]; omega
    refine ⟨by simp [Stack.push, hf], by simp [Stack.push, hf], ?_, ?_⟩
    · simp only [Stack.push, hf, Bool.false_eq_true, if_false]
      exact getD_set_self s.data s.len (some x) none (by omega)
    · simp only [Stack.push, hf, Bool.false_eq_true, if_false, Stack.as_slice]
      exact take_set_succ s.data s.len (some x) (by omega)

/-- C5 witness: the full capacity-2 container [1,2] rejects push(9)
unchanged; the empty capacity-2 container accepts push(5). -/
theorem push_spec_witness :
    (Stack.from_array [1, 2]).push 9 = (Stack.from_array [1, 2], some 9) ∧
      ((Stack.new Nat 2).push 5).2 = none ∧
      ((Stack.new Nat 2).push 5).1.len = 1 := by
  refine ⟨(push_spec (Stack.from_array [1, 2]) 9).1 (by decide), ?_, ?_⟩
  · exact congrArg Prod.snd
      (((push_spec (Stack.new Nat 2) 5).2 (by decide) (by decide)).1)
  · exact ((push_spec (Stack.new Nat 2) 5).2 (by decide) (by decide)).2.1

/-! ### C7: push/pop duality -/

/-- C7: on a non-full container, pop() right after a successful push(v)
returns v and restores the prior length and prior live contents; pop() on an
empty container returns none and leaves the container unchanged. -/
theorem push_pop_spec {T : Type} (s : Stack T) (v : T) :
    (s.data.length = s.cap → s.len < s.cap →
      (s.push v).1.pop.2 = some v ∧
      (s.push v).1.pop.1.len = s.len ∧
      (s.push v).1.pop.1.as_slice = s.as_slice ∧
      (s.push v).1.pop.1.cap = s.cap) ∧
    (s.len = 0 → s.pop = (s, none)) := by
  constructor
  · intro hd hl
    have hf : s.is_full = false := by simp [Stack.is_full]; omega
    have hpush : (s.push v).1
        = { s with data := s.data.set s.len (some v), len := s.len + 1 } := by
      simp [Stack.push, hf]
    have hne : ({ s with data := s.data.set s.len (some v),
                         len := s.len + 1 } : Stack T).is_empty = false := by
      simp [Stack.is_empty]
    rw [hpush]
    refine ⟨?_, ?_, ?_, ?_⟩
    · simp only [Stack.pop, hne, Bool.false_eq_true, if_false]
      exact getD_set_self s.data s.len (some v) none (by omega)
    · simp [Stack.pop, hne]
    · simp only [Stack.pop, hne, Bool.false_eq_true, if_false, Stack.as_slice]
      exact take_set_of_le s.data s.len s.len (some v) (le_refl _)
    · simp [Stack.pop, hne]
  · intro h
    simp [Stack.pop, Stack.is_empty, h]

/-- C7 witness: push(5) then pop() on the empty capacity-2 container
returns 5 and restores length 0; pop() on an empty capacity-1 container
returns none and leaves it unchanged. -/
theorem push_pop_spec_witness :
    ((Stack.new Nat 2).push 5).1.pop.2 = some 5 ∧
      ((Stack.new Nat 2).push 5).1.pop.1.len = 0 ∧
      (Stack.new Nat 1).pop = (Stack.new Nat 1, none) := by
  refine ⟨?_, ?_, ?_⟩
  · exact ((push_pop_spec (Stack.new Nat 2) 5).1 (by decide) (by decide)).1
  · exact ((push_pop_spec (Stack.new Nat 2) 5).1 (by decide) (by decide)).2.1
  · exact (push_pop_spec (Stack.new Nat 1) 0).2 (by decide)

/-! ### C4: extend_from_slice totality -/

/-- C4: for a container with free space f = cap - len and a slice of length
m: when m <= f the call succeeds (Ok), appends every slice element in order
after the unchanged prior prefix; when m > f it appends exactly the first f
slice elements (filling the container) and fails with the remainder, the
slice tail of length m - f. -/
theorem extend_from_slice_spec {T : Type} (s : Stack T) (l : List T)
    (hd : s.data.length = s.cap) (hl : s.len ≤ s.cap) :
    (l.length ≤ s.cap - s.len →
      (s.extend_from_slice l).2 = none ∧
      (s.extend_from_slice l).1.len = s.len + l.length ∧
      (s.extend_from_slice l).1.as_slice = s.as_slice ++ l.map some) ∧
    (l.length > s.cap - s.len →
      (s.extend_from_slice l).2 = some (l.drop (s.cap - s.len)) ∧
      (l.drop (s.cap - s.len)).length = l.length - (s.cap - s.len) ∧
      (s.extend_from_slice l).1.len = s.cap ∧
      (s.extend_from_slice l).1.as_slice
        = s.as_slice ++ (l.take (s.cap - s.len)).map some) := by
  induction l generalizing s with
  | nil =>
    refine ⟨fun h => ?_, fun h => ?_⟩
    · simp [Stack.extend_from_slice]
    · simp at h
  | cons x rest ih =>
    by_cases hfull : s.len ≥ s.cap
    · have hcz : s.cap - s.len = 0 := by omega
      have hpush : s.push x = (s, some x) := by
        simp [Stack.push, Stack.is_full, hfull]
      refine ⟨fun h => ?_, fun h => ?_⟩
      · simp [hcz] at h
      · have : s.extend_from_slice (x :: rest) = (s, some (x :: rest)) := by
          simp [Stack.extend_from_slice, hpush]
        rw [this, hcz]
        refine ⟨by simp, by simp, ?_, by simp [Stack.as_slice]⟩
        show s.len = s.cap
        omega
    · have hlt : s.len < s.cap := by omega
      have hf : s.is_full = false := by simp [Stack.is_full]; omega
      have hpush : s.push x
          = ({ s with data := s.data.set s.len (some x),
                      len := s.len + 1 }, none) := by
        simp [Stack.push, hf]
      have hstep : s.extend_from_slice (x :: rest)
          = Stack.extend_from_slice
              { s with data := s.data.set s.len (some x), len := s.len + 1 }
              rest := by
        simp [Stack.extend_from_slice, hpush]
      set s1 : Stack T :=
        { s with data := s.data.set s.len (some x), len := s.len + 1 } with hs1
      have hd1 : s1.data.length = s1.cap := by
        simp [hs1, List.length_set, hd]
      have hl1 : s1.len ≤ s1.cap := by simp [hs1]; omega
      have hslice : s1.as_slice = s.as_slice ++ [some x] := by
        simp only [hs1, Stack.as_slice]
        exact take_set_succ s.data s.len (some x) (by omega)
      have hcap : s.cap - s.len = (s.cap - (s.len + 1)) + 1 := by omega
      refine ⟨fun h => ?_, fun h => ?_⟩
      · have h1 : rest.length ≤ s1.cap - s1.len := by
          simp only [hs1] at *; simp at h ⊢; omega
        obtain ⟨e1, e2, e3⟩ := (ih s1 hd1 hl1).1 h1
        rw [hstep]
        refine ⟨e1, ?_, ?_⟩
        · rw [e2]; simp [hs1]; omega
        · rw [e3, hslice]; simp
      · have h1 : rest.length > s1.cap - s1.len := by
          simp only [hs1] at *; simp at h ⊢; omega
        obtain ⟨e1, e2, e3, e4⟩ := (ih s1 hd1 hl1).2 h1
        rw [hstep]
        have hdrop : (x :: rest).drop (s.cap - s.len)
            = rest.drop (s1.cap - s1.len) := by
          rw [hcap]; simp [hs1]
        have htake : (x :: rest).take (s.cap - s.len)
            = x :: rest.take (s1.cap - s1.len) := by
          rw [hcap]; simp [hs1]
        refine ⟨?_, ?_, ?_, ?_⟩
        · rw [e1, hdrop]
        · rw [hdrop, e2]; simp [hs1]; omega
        · exact e3
        · rw [e4, hslice, htake]; simp

/-- C4 witness: the spec scenario - an empty capacity-3 container extended
from [9,9,9,9] appends three elements and returns remainder [9]; an exact
fit of two elements into the empty capacity-2 container succeeds. -/
theorem extend_from_slice_spec_witness :
    ((Stack.new Nat 3).extend_from_slice [9, 9, 9, 9]).2 = some [9] ∧
      ((Stack.new Nat 3).extend_from_slice [9, 9, 9, 9]).1.len = 3 ∧
      ((Stack.new Nat 2).extend_from_slice [7, 8]).2 = none := by
  refine ⟨?_, ?_, ?_⟩
  · exact ((extend_from_slice_spec (Stack.new Nat 3) [9, 9, 9, 9]
      (by decide) (by decide)).2 (by decide)).1
  · exact ((extend_from_slice_spec (Stack.new Nat 3) [9, 9, 9, 9]
      (by decide) (by decide)).2 (by decide)).2.2.1
  · exact ((extend_from_slice_spec (Stack.new Nat 2) [7, 8]
      (by decide) (by decide)).1 (by decide)).1

/-! ### C2 amended: extend_from_iter -/

/-- C2 amended: for a container with free space f = cap - len and a finite
sequence of m elements: when m < f the call succeeds and consumes the whole
sequence, appending all m elements in order; when m >= f (note: including
the exact fit m = f, which the original claim counted as success) exactly f
elements are appended and the call fails, returning the partially consumed
sequence that yields exactly the remaining m - f elements. -/
theorem extend_from_iter_spec {T : Type} (s : Stack T) (l : List T)
    (hd : s.data.length = s.cap) (hl : s.len ≤ s.cap) :
    (l.length < s.cap - s.len →
      (s.extend_from_iter l).2 = none ∧
      (s.extend_from_iter l).1.len = s.len + l.length ∧
      (s.extend_from_iter l).1.as_slice = s.as_slice ++ l.map some) ∧
    (l.length ≥ s.cap - s.len →
      (s.extend_from_iter l).2 = some (l.drop (s.cap - s.len)) ∧
      (l.drop (s.cap - s.len)).length = l.length - (s.cap - s.len) ∧
      (s.extend_from_iter l).1.len = s.cap ∧
      (s.extend_from_iter l).1.as_slice
        = s.as_slice ++ (l.take (s.cap - s.len)).map some) := by
  induction l generalizing s with
  | nil =>
    by_cases hfull : s.len ≥ s.cap
    · have hcz : s.cap - s.len = 0 := by omega
      have hfb : s.is_full = true := by simp [Stack.is_full]; omega
      have hstep : s.extend_from_iter [] = (s, some []) := by
        rw [Stack.extend_from_iter, hfb]; rfl
      refine ⟨fun h => by omega, fun h => ?_⟩
      rw [hstep, hcz]
      refine ⟨by simp, by simp, ?_, by simp [Stack.as_slice]⟩
      show s.len = s.cap
      omega
    · have hfb : s.is_full = false := by simp [Stack.is_full]; omega
      have hstep : s.extend_from_iter [] = (s, none) := by
        rw [Stack.extend_from_iter, hfb]; rfl
      refine ⟨fun h => ?_, fun h => ?_⟩
      · rw [hstep]
        exact ⟨rfl, by simp, by simp⟩
      · simp at h
        omega
  | cons x rest ih =>
    by_cases hfull : s.len ≥ s.cap
    · have hcz : s.cap - s.len = 0 := by omega
      have hfb : s.is_full = true := by simp [Stack.is_full]; omega
      have hstep : s.extend_from_iter (x :: rest) = (s, some (x :: rest)) := by
        rw [Stack.extend_from_iter, hfb]; rfl
      refine ⟨fun h => by omega, fun h => ?_⟩
      rw [hstep, hcz]
      refine ⟨by simp, by simp, ?_, by simp [Stack.as_slice]⟩
      show s.len = s.cap
      omega
    · have hlt : s.len < s.cap := by omega
      have hfb : s.is_full = false := by simp [Stack.is_full]; omega
      have hpush : s.push x
          = ({ s with data := s.data.set s.len (some x),
                      len := s.len + 1 }, none) := by
        simp [Stack.push, hfb]
      have hstep : s.extend_from_iter (x :: rest)
          = Stack.extend_from_iter
              { s with data := s.data.set s.len (some x), len := s.len + 1 }
              rest := by
        rw [Stack.extend_from_iter, hfb]
        show Stack.extend_from_iter (s.push x).1 rest = _
        rw [hpush]
      set s1 : Stack T :=
        { s with data := s.data.set s.len (some x), len := s.len + 1 } with hs1
      have hd1 : s1.data.length = s1.cap := by
        simp [hs1, List.length_set, hd]
      have hl1 : s1.len ≤ s1.cap := by simp [hs1]; omega
      have hslice : s1.as_slice = s.as_slice ++ [some x] := by
        simp only [hs1, Stack.as_slice]
        exact take_set_succ s.data s.len (some x) (by omega)
      have hcap : s.cap - s.len = (s.cap - (s.len + 1)) + 1 := by omega
      refine ⟨fun h => ?_, fun h => ?_⟩
      · have h1 : rest.length < s1.cap - s1.len := by
          simp only [hs1] at *; simp at h ⊢; omega
        obtain ⟨e1, e2, e3⟩ := (ih s1 hd1 hl1).1 h1
        rw [hstep]
        refine ⟨e1, ?_, ?_⟩
        · rw [e2]; simp [hs1]; omega
        · rw [e3, hslice]; simp
      · have h1 : rest.length ≥ s1.cap - s1.len := by
          simp only [hs1] at *; simp at h ⊢; omega
        obtain ⟨e1, e2, e3, e4⟩ := (ih s1 hd1 hl1).2 h1
        rw [hstep]
        have hdrop : (x :: rest).drop (s.cap - s.len)
            = rest.drop (s1.cap - s1.len) := by
          rw [hcap]; simp [hs1]
        have htake : (x :: rest).take (s.cap - s.len)
            = x :: rest.take (s1.cap - s1.len) := by
          rw [hcap]; simp [hs1]
        refine ⟨?_, ?_, ?_, ?_⟩
        · rw [e1, hdrop]
        · rw [hdrop, e2]; simp [hs1]; omega
        · exact e3
        · rw [e4, hslice, htake]; simp

/-- C2 witness: two elements into the empty capacity-3 container succeed
and are both consumed; two elements into the empty capacity-1 container
append one and fail with the iterator still holding [5]. -/
theorem extend_from_iter_spec_witness :
    ((Stack.new Nat 3).extend_from_iter [1, 2]).2 = none ∧
      ((Stack.new Nat 3).extend_from_iter [1, 2]).1.len = 2 ∧
      ((Stack.new Nat 1).extend_from_iter [4, 5]).2 = some [5] ∧
      ((Stack.new Nat 1).extend_from_iter [4, 5]).1.len = 1 := by
  refine ⟨?_, ?_, ?_, ?_⟩
  · exact ((extend_from_iter_spec (Stack.new Nat 3) [1, 2]
      (by decide) (by decide)).1 (by decide)).1
  · exact ((extend_from_iter_spec (Stack.new Nat 3) [1, 2]
      (by decide) (by decide)).1 (by decide)).2.1
  · exact ((extend_from_iter_spec (Stack.new Nat 1) [4, 5]
      (by decide) (by decide)).2 (by decide)).1
  · exact ((extend_from_iter_spec (Stack.new Nat 1) [4, 5]
      (by decide) (by decide)).2 (by decide)).2.2.1


/-! ### C6: resize_with / resize -/

/-- Behaviour of the resize fill loop: starting with fuel new_len - len it
pushes the successive closure results until len = new_len, appending them in
call order after the unchanged prior prefix. -/
theorem fill_loop_spec {T : Type} (new_len : Nat) (f : Nat → T) :
    ∀ (fuel : Nat) (s : Stack T) (k : Nat),
      s.data.length = s.cap → s.len + fuel = new_len → new_len ≤ s.cap →
      (Stack.fill_loop new_len f s k fuel).len = new_len ∧
      (Stack.fill_loop new_len f s k fuel).cap = s.cap ∧
      (Stack.fill_loop new_len f s k fuel).data.length = s.cap ∧
      (Stack.fill_loop new_len f s k fuel).as_slice
        = s.as_slice ++ (List.range' k fuel).map (fun j => some (f j)) := by
  intro fuel
  induction fuel with
  | zero =>
    intro s k hd hlen hcap
    refine ⟨?_, ?_, ?_, ?_⟩
    · simp only [Stack.fill_loop]; omega
    · simp [Stack.fill_loop]
    · simp [Stack.fill_loop, hd]
    · simp [Stack.fill_loop]
  | succ fuel ih =>
    intro s k hd hlen hcap
    have hlt : s.len < new_len := by omega
    have hltc : s.len < s.cap := by omega
    have hfb : s.is_full = false := by simp [Stack.is_full]; omega
    have hpush : (s.push (f k)).1
        = { s with data := s.data.set s.len (some (f k)), len := s.len + 1 } := by
      simp [Stack.push, hfb]
    have hstep : Stack.fill_loop new_len f s k (fuel + 1)
        = Stack.fill_loop new_len f
            { s with data := s.data.set s.len (some (f k)), len := s.len + 1 }
            (k + 1) fuel := by
      rw [Stack.fill_loop, if_pos hlt, hpush]
    set s1 : Stack T :=
      { s with data := s.data.set s.len (some (f k)), len := s.len + 1 } with hs1
    have hd1 : s1.data.length = s1.cap := by simp [hs1, List.length_set, hd]
    have hslice : s1.as_slice = s.as_slice ++ [some (f k)] := by
      simp only [hs1, Stack.as_slice]
      exact take_set_succ s.data s.len (some (f k)) (by omega)
    obtain ⟨e1, e2, e3, e4⟩ := ih s1 (k + 1) hd1 (by simp [hs1]; omega)
      (by simp [hs1]; omega)
    rw [hstep]
    refine ⟨e1, by rw [e2], by rw [e3], ?_⟩
    rw [e4, hslice, List.range'_succ]
    simp

/-- C6: resize_with(new_len, f) (and resize(new_len, x), which delegates to
it) fails - an unrecoverable capacity panic, raised by check_capacity before
any mutation - exactly when new_len > capacity; when new_len <= capacity it
truncates if new_len < len and otherwise appends fresh fill values until
len = new_len, leaving the prior prefix unchanged. -/
theorem resize_with_spec {T : Type} (s : Stack T) (n : Nat) (f : Nat → T)
    (x : T) (hd : s.data.length = s.cap) :
    (s.resize_with n f = none ↔ n > s.cap) ∧
    (n ≤ s.cap → n < s.len → s.resize_with n f = some (s.truncate n)) ∧
    (n ≤ s.cap → s.len ≤ n →
      s.resize_with n f = some (Stack.fill_loop n f s 0 (n - s.len)) ∧
      (Stack.fill_loop n f s 0 (n - s.len)).len = n ∧
      (Stack.fill_loop n f s 0 (n - s.len)).as_slice
        = s.as_slice ++ (List.range' 0 (n - s.len)).map (fun j => some (f j))) ∧
    s.resize n x = s.resize_with n (fun _ => x) := by
  refine ⟨?_, ?_, ?_, rfl⟩
  · constructor
    · intro h
      by_contra hc
      have hck : s.check_capacity n = true := by
        simp [Stack.check_capacity]; omega
      simp [Stack.resize_with, hck] at h
    · intro h
      have hck : s.check_capacity n = false := by
        simp [Stack.check_capacity]; omega
      simp [Stack.resize_with, hck]
  · intro hn hlt
    have hck : s.check_capacity n = true := by
      simp [Stack.check_capacity]; omega
    simp [Stack.resize_with, hck, hlt]
  · intro hn hge
    have hck : s.check_capacity n = true := by
      simp [Stack.check_capacity]; omega
    have hnlt : ¬ n < s.len := by omega
    obtain ⟨e1, e2, e3, e4⟩ := fill_loop_spec n f (n - s.len) s 0 hd
      (by omega) hn
    exact ⟨by simp [Stack.resize_with, hck, hnlt], e1, e4⟩

/-- C6 witness: on the capacity-5 container [6,2,8], resizing to 6 panics,
resizing to 2 truncates, resizing to 5 with fill 10 gives live contents
[6,2,8,10,10], and resize delegates to resize_with. -/
theorem resize_with_spec_witness :
    (⟨5, 3, [some 6, some 2, some 8, none, none]⟩ : Stack Nat).resize_with 6
        (fun _ => 10) = none ∧
      (⟨5, 3, [some 6, some 2, some 8, none, none]⟩ : Stack Nat).resize_with 2
          (fun _ => 10)
        = some ((⟨5, 3, [some 6, some 2, some 8, none, none]⟩ :
            Stack Nat).truncate 2) ∧
      (⟨5, 3, [some 6, some 2, some 8, none, none]⟩ : Stack Nat).resize_with 5
          (fun _ => 10)
        = some (Stack.fill_loop 5 (fun _ => 10)
            (⟨5, 3, [some 6, some 2, some 8, none, none]⟩ : Stack Nat) 0 2) ∧
      (Stack.fill_loop 5 (fun _ => (10 : Nat))
          (⟨5, 3, [some 6, some 2, some 8, none, none]⟩ : Stack Nat) 0 2).len
        = 5 ∧
      (⟨5, 3, [some 6, some 2, some 8, none, none]⟩ : Stack Nat).resize 5 10
        = (⟨5, 3, [some 6, some 2, some 8, none, none]⟩ :
            Stack Nat).resize_with 5 (fun _ => 10) := by
  refine ⟨?_, ?_, ?_, ?_, ?_⟩
  · exact (resize_with_spec
      (⟨5, 3, [some 6, some 2, some 8, none, none]⟩ : Stack Nat) 6
      (fun _ => 10) 10 (by decide)).1.mpr (by decide)
  · exact (resize_with_spec
      (⟨5, 3, [some 6, some 2, some 8, none, none]⟩ : Stack Nat) 2
      (fun _ => 10) 10 (by decide)).2.1 (by decide) (by decide)
  · exact ((resize_with_spec
      (⟨5, 3, [some 6, some 2, some 8, none, none]⟩ : Stack Nat) 5
      (fun _ => 10) 10 (by decide)).2.2.1 (by decide) (by decide)).1
  · exact ((resize_with_spec
      (⟨5, 3, [some 6, some 2, some 8, none, none]⟩ : Stack Nat) 5
      (fun _ => 10) 10 (by decide)).2.2.1 (by decide) (by decide)).2.1
  · exact (resize_with_spec
      (⟨5, 3, [some 6, some 2, some 8, none, none]⟩ : Stack Nat) 5
      (fun _ => 10) 10 (by decide)).2.2.2


/-! ### C10: clone -/

theorem getD_take {α : Type} (l : List α) (n i : Nat) (d : α) (h : i < n) :
    (l.take n).getD i d = l.getD i d := by
  induction l generalizing n i with
  | nil => simp
  | cons x xs ih =>
    cases n with
    | zero => omega
    | succ m =>
      cases i with
      | zero => rfl
      | succ j =>
        show (xs.take m).getD j d = xs.getD j d
        exact ih m j (by omega)

/-- Loop invariant of the clone while-loop: the accumulator has the same
capacity, its live prefix mirrors the source prefix already copied, and the
loop finishes with the lengths equal and the live contents identical. -/
theorem clone_loop_spec {T : Type} (s : Stack T) (hwf : s.WF) :
    ∀ (fuel : Nat) (acc : Stack T),
      acc.cap = s.cap → acc.data.length = s.cap → acc.len + fuel = s.len →
      acc.as_slice = s.data.take acc.len →
      (Stack.clone_loop s acc fuel).cap = s.cap ∧
      (Stack.clone_loop s acc fuel).len = s.len ∧
      (Stack.clone_loop s acc fuel).as_slice = s.as_slice := by
  obtain ⟨hd, hl, hinit⟩ := hwf
  intro fuel
  induction fuel with
  | zero =>
    intro acc hc hdl hlen hsl
    have heq : acc.len = s.len := by omega
    exact ⟨hc, heq, by rw [Stack.clone_loop, hsl, heq, Stack.as_slice]⟩
  | succ fuel ih =>
    intro acc hc hdl hlen hsl
    have hlt : acc.len < s.len := by omega
    obtain ⟨x, hx⟩ := Option.isSome_iff_exists.mp (hinit acc.len hlt)
    have hfb : acc.is_full = false := by
      simp [Stack.is_full]; omega
    have hpush : (acc.push x).1
        = { acc with data := acc.data.set acc.len (some x),
                     len := acc.len + 1 } := by
      simp [Stack.push, hfb]
    have hstep : Stack.clone_loop s acc (fuel + 1)
        = Stack.clone_loop s
            { acc with data := acc.data.set acc.len (some x),
                       len := acc.len + 1 } fuel := by
      rw [Stack.clone_loop, if_pos hlt, hx]
      show Stack.clone_loop s (acc.push x).1 fuel = _
      rw [hpush]
    set acc1 : Stack T :=
      { acc with data := acc.data.set acc.len (some x),
                 len := acc.len + 1 } with hacc1
    have hsl1 : acc1.as_slice = s.data.take acc1.len := by
      have h1 : acc1.as_slice = acc.as_slice ++ [some x] := by
        simp only [hacc1, Stack.as_slice]
        exact take_set_succ acc.data acc.len (some x) (by omega)
      have h2 : s.data.take (acc.len + 1)
          = s.data.take acc.len ++ [s.data.getD acc.len none] :=
        take_succ_getD s.data acc.len none (by omega)
      rw [h1, hsl, h2, hx]
    rw [hstep]
    exact ih acc1 (by simp [hacc1, hc]) (by simp [hacc1, List.length_set, hdl])
      (by simp [hacc1]; omega) hsl1

/-- C10: cloning a well-formed container yields a container of the same
capacity with the same length and, at every index below the length, the
same element (the live prefixes coincide, which is exactly the structural
equality the PartialEq implementation compares via as_slice).  The source
container is untouched: clone only reads it. -/
theorem clone_spec {T : Type} (s : Stack T) (h : s.WF) :
    s.clone.cap = s.cap ∧ s.clone.len = s.len ∧
      s.clone.as_slice = s.as_slice := by
  exact clone_loop_spec s h s.len (Stack.new T s.cap) rfl
    (by simp [Stack.new]) (by simp [Stack.new])
    (by simp [Stack.new, Stack.as_slice])

/-- C10 witness: cloning the capacity-4 container with live prefix [7,8]
reproduces capacity 4, length 2 and the same live contents. -/
theorem clone_spec_witness :
    (⟨4, 2, [some 7, some 8, none, none]⟩ : Stack Nat).clone.cap = 4 ∧
      (⟨4, 2, [some 7, some 8, none, none]⟩ : Stack Nat).clone.len = 2 ∧
      (⟨4, 2, [some 7, some 8, none, none]⟩ : Stack Nat).clone.as_slice
        = (⟨4, 2, [some 7, some 8, none, none]⟩ : Stack Nat).as_slice := by
  exact clone_spec (⟨4, 2, [some 7, some 8, none, none]⟩ : Stack Nat)
    ⟨rfl, by decide, fun i hi => by
      have h2 : i < 2 := hi
      interval_cases i <;> rfl⟩


/-! ### C8: the initialization invariant over reachable states -/

theorem push_cap {T : Type} (s : Stack T) (x : T) : (s.push x).1.cap = s.cap := by
  unfold Stack.push
  split <;> rfl

/-- Preservation of well-formedness by every safe constructor and safe
public operation, proved operation by operation. -/
theorem wf_new {T : Type} (cap : Nat) : (Stack.new T cap).WF :=
  ⟨by simp [Stack.new], by simp [Stack.new],
    fun i hi => by simp [Stack.new] at hi⟩

theorem wf_from_array {T : Type} (l : List T) : (Stack.from_array l).WF :=
  ⟨by simp [Stack.from_array], le_refl _,
    fun i hi => getD_map_some_isSome l i hi⟩

theorem wf_truncate {T : Type} (s : Stack T) (n : Nat) (h : s.WF) :
    (s.truncate n).WF := by
  obtain ⟨hd, hl, hi⟩ := h
  refine ⟨hd, ?_, ?_⟩
  · simp only [Stack.truncate]
    omega
  · intro i hlt
    simp only [Stack.truncate] at hlt
    exact hi i (by omega)

theorem wf_using_array {T : Type} (l : List T) (n : Nat) (s : Stack T)
    (h : Stack.using_array l n = some s) : s.WF := by
  by_cases hn : n > l.length
  · simp [Stack.using_array, hn] at h
  · simp only [Stack.using_array, hn, if_neg, ite_false, Option.some.injEq] at h
    exact h ▸ wf_truncate (Stack.from_array l) n (wf_from_array l)

theorem wf_push {T : Type} (s : Stack T) (x : T) (h : s.WF) : (s.push x).1.WF := by
  obtain ⟨hd, hl, hi⟩ := h
  by_cases hfull : s.len ≥ s.cap
  · have heq : (s.push x).1 = s := by simp [Stack.push, Stack.is_full, hfull]
    rw [heq]
    exact ⟨hd, hl, hi⟩
  · have hfb : s.is_full = false := by simp [Stack.is_full]; omega
    have hpush : (s.push x).1
        = { s with data := s.data.set s.len (some x), len := s.len + 1 } := by
      simp [Stack.push, hfb]
    rw [hpush]
    refine ⟨by simp [List.length_set, hd], by simp; omega, ?_⟩
    intro i hlt
    simp at hlt
    by_cases hieq : i = s.len
    · subst hieq
      show ((s.data.set s.len (some x)).getD s.len none).isSome
      rw [getD_set_self s.data s.len (some x) none (by omega)]
      rfl
    · show ((s.data.set s.len (some x)).getD i none).isSome
      rw [getD_set_ne s.data s.len i (some x) none (fun hh => hieq hh.symm)]
      exact hi i (by omega)

theorem wf_pop {T : Type} (s : Stack T) (h : s.WF) : s.pop.1.WF := by
  obtain ⟨hd, hl, hi⟩ := h
  by_cases he : s.len = 0
  · have heq : s.pop.1 = s := by simp [Stack.pop, Stack.is_empty, he]
    rw [heq]
    exact ⟨hd, hl, hi⟩
  · have heb : s.is_empty = false := by simp [Stack.is_empty]; omega
    have heq : s.pop.1 = { s with len := s.len - 1 } := by
      simp [Stack.pop, heb]
    rw [heq]
    refine ⟨hd, by simp; omega, ?_⟩
    intro i hlt
    simp at hlt
    exact hi i (by omega)

theorem wf_clear {T : Type} (s : Stack T) (h : s.WF) : s.clear.WF := by
  obtain ⟨hd, hl, hi⟩ := h
  refine ⟨hd, by simp [Stack.clear], ?_⟩
  intro i hlt
  simp [Stack.clear] at hlt

theorem wf_swap_remove {T : Type} (s : Stack T) (idx : Nat)
    (p : Stack T × Option T) (h : s.WF) (he : s.swap_remove idx = some p) :
    p.1.WF := by
  obtain ⟨hd, hl, hinit⟩ := h
  by_cases hb : idx < s.len
  · have hcb : s.check_bounds idx = true := by
      simp [Stack.check_bounds]; omega
    have hsr : s.swap_remove idx = some ({ s with len := s.len - 1, data := s.data.set idx (s.data.getD (s.len - 1) none) }, s.data.getD idx none) := by
      simp [Stack.swap_remove, hcb]
    rw [hsr] at he
    obtain rfl := Option.some.inj he
    refine ⟨by simp [List.length_set, hd], by simp; omega, ?_⟩
    intro j hj
    simp at hj
    by_cases hjeq : j = idx
    · subst hjeq
      show ((s.data.set j (s.data.getD (s.len - 1) none)).getD j none).isSome
      rw [getD_set_self s.data j (s.data.getD (s.len - 1) none) none
        (by omega)]
      exact hinit (s.len - 1) (by omega)
    · show ((s.data.set idx (s.data.getD (s.len - 1) none)).getD j none).isSome
      rw [getD_set_ne s.data idx j (s.data.getD (s.len - 1) none) none
        (fun hh => hjeq hh.symm)]
      exact hinit j (by omega)
  · have hcb : s.check_bounds idx = false := by
      simp [Stack.check_bounds]; omega
    simp [Stack.swap_remove, hcb] at he

theorem swap_loop_wf {T : Type} :
    ∀ (fuel : Nat) (data : List (Option T)) (temp : Option T) (i B : Nat),
      temp.isSome → i + fuel ≤ B → B ≤ data.length →
      (∀ j, j < B → (data.getD j none).isSome) →
      (Stack.swap_loop data temp i fuel).1.length = data.length ∧
      (∀ j, j < B → ((Stack.swap_loop data temp i fuel).1.getD j none).isSome) ∧
      (Stack.swap_loop data temp i fuel).2.isSome := by
  intro fuel
  induction fuel with
  | zero =>
    intro data temp i B ht hb hlen hall
    exact ⟨rfl, hall, ht⟩
  | succ fuel ih =>
    intro data temp i B ht hb hlen hall
    have hiB : i < B := by omega
    have h1 : (data.getD i none).isSome := hall i hiB
    have hall1 : ∀ j, j < B → ((data.set i temp).getD j none).isSome := by
      intro j hj
      by_cases hij : j = i
      · subst hij
        rw [getD_set_self data j temp none (by omega)]
        exact ht
      · rw [getD_set_ne data i j temp none (fun hh => hij hh.symm)]
        exact hall j hj
    have hrec := ih (data.set i temp) (data.getD i none) (i + 1) B h1 (by omega)
      (by rw [List.length_set]; exact hlen) hall1
    show (Stack.swap_loop (data.set i temp) (data.getD i none) (i + 1) fuel).1.length
        = data.length ∧ _ ∧ _
    rw [List.length_set] at hrec
    exact hrec

theorem wf_insert {T : Type} (s : Stack T) (idx : Nat) (x : T)
    (p : Stack T × Option T) (h : s.WF) (he : s.insert idx x = some p) :
    p.1.WF := by
  obtain ⟨hd, hl, hinit⟩ := h
  by_cases hb : idx < s.len
  · have hcb : s.check_bounds idx = true := by
      simp [Stack.check_bounds]; omega
    obtain ⟨l1, lall, lsome⟩ := swap_loop_wf (s.len - idx) s.data (some x) idx
      s.len rfl (by omega) (by omega) hinit
    by_cases hfull : s.len ≥ s.cap
    · have hfb : s.is_full = true := by simp [Stack.is_full]; omega
      have hins : s.insert idx x = some ({ s with data := (Stack.swap_loop s.data (some x) idx (s.len - idx)).1 }, (Stack.swap_loop s.data (some x) idx (s.len - idx)).2) := by
        simp [Stack.insert, hcb, hfb]
      rw [hins] at he
      obtain rfl := Option.some.inj he
      exact ⟨by simp [l1, hd], by simp; omega, fun j hj => lall j (by simpa using hj)⟩
    · have hfb : s.is_full = false := by simp [Stack.is_full]; omega
      have hins : s.insert idx x = some ({ s with data := (Stack.swap_loop s.data (some x) idx (s.len - idx)).1.set s.len (Stack.swap_loop s.data (some x) idx (s.len - idx)).2, len := s.len + 1 }, none) := by
        simp [Stack.insert, hcb, hfb]
      rw [hins] at he
      obtain rfl := Option.some.inj he
      refine ⟨by simp [List.length_set, l1, hd], by simp; omega, ?_⟩
      intro j hj
      simp at hj
      by_cases hjeq : j = s.len
      · subst hjeq
        show (((Stack.swap_loop s.data (some x) idx (s.len - idx)).1.set s.len (Stack.swap_loop s.data (some x) idx (s.len - idx)).2).getD s.len none).isSome
        rw [getD_set_self (Stack.swap_loop s.data (some x) idx (s.len - idx)).1 s.len (Stack.swap_loop s.data (some x) idx (s.len - idx)).2 none (by rw [l1]; omega)]
        exact lsome
      · show (((Stack.swap_loop s.data (some x) idx (s.len - idx)).1.set s.len (Stack.swap_loop s.data (some x) idx (s.len - idx)).2).getD j none).isSome
        rw [getD_set_ne (Stack.swap_loop s.data (some x) idx (s.len - idx)).1 s.len j (Stack.swap_loop s.data (some x) idx (s.len - idx)).2 none (fun hh => hjeq hh.symm)]
        exact lall j (by omega)
  · have hcb : s.check_bounds idx = false := by
      simp [Stack.check_bounds]; omega
    simp [Stack.insert, hcb] at he

theorem shift_loop_wf {T : Type} :
    ∀ (fuel : Nat) (data : List (Option T)) (i B : Nat),
      1 ≤ i → i + fuel ≤ B → B ≤ data.length →
      (∀ j, j < B → (data.getD j none).isSome) →
      (Stack.shift_loop data i fuel).length = data.length ∧
      (∀ j, j < B → ((Stack.shift_loop data i fuel).getD j none).isSome) := by
  intro fuel
  induction fuel with
  | zero =>
    intro data i B h1 hb hlen hall
    exact ⟨rfl, hall⟩
  | succ fuel ih =>
    intro data i B h1 hb hlen hall
    have hiB : i < B := by omega
    have hsome : (data.getD i none).isSome := hall i hiB
    have hall1 : ∀ j, j < B →
        (((data.set (i - 1) (data.getD i none))).getD j none).isSome := by
      intro j hj
      by_cases hij : j = i - 1
      · subst hij
        rw [getD_set_self data (i - 1) (data.getD i none) none (by omega)]
        exact hsome
      · rw [getD_set_ne data (i - 1) j (data.getD i none) none
          (fun hh => hij hh.symm)]
        exact hall j hj
    have hrec := ih (data.set (i - 1) (data.getD i none)) (i + 1) B (by omega)
      (by omega) (by rw [List.length_set]; exact hlen) hall1
    show (Stack.shift_loop (data.set (i - 1) (data.getD i none)) (i + 1)
        fuel).length = data.length ∧ _
    rw [List.length_set] at hrec
    exact hrec

theorem wf_remove {T : Type} (s : Stack T) (idx : Nat)
    (p : Stack T × Option T) (h : s.WF) (he : s.remove idx = some p) :
    p.1.WF := by
  obtain ⟨hd, hl, hinit⟩ := h
  by_cases hb : idx < s.len
  · have hcb : s.check_bounds idx = true := by
      simp [Stack.check_bounds]; omega
    have hrm : s.remove idx = some ({ s with data := Stack.shift_loop s.data (idx + 1) (s.len - (idx + 1)), len := s.len - 1 }, s.data.getD idx none) := by
      simp [Stack.remove, hcb]
    rw [hrm] at he
    obtain rfl := Option.some.inj he
    obtain ⟨l1, lall⟩ := shift_loop_wf (s.len - (idx + 1)) s.data (idx + 1)
      s.len (by omega) (by omega) (by omega) hinit
    refine ⟨by simp [l1, hd], by simp; omega, ?_⟩
    intro j hj
    simp at hj
    exact lall j (by omega)
  · have hcb : s.check_bounds idx = false := by
      simp [Stack.check_bounds]; omega
    simp [Stack.remove, hcb] at he

theorem wf_fill_loop {T : Type} (new_len : Nat) (f : Nat → T) :
    ∀ (fuel : Nat) (s : Stack T) (k : Nat), s.WF → new_len ≤ s.cap →
      (Stack.fill_loop new_len f s k fuel).WF := by
  intro fuel
  induction fuel with
  | zero =>
    intro s k h hc
    simpa [Stack.fill_loop] using h
  | succ fuel ih =>
    intro s k h hc
    rw [Stack.fill_loop]
    by_cases hlt : s.len < new_len
    · rw [if_pos hlt]
      exact ih (s.push (f k)).1 (k + 1) (wf_push s (f k) h)
        (by rw [push_cap]; exact hc)
    · rw [if_neg hlt]
      exact h

theorem wf_resize_with {T : Type} (s : Stack T) (n : Nat) (f : Nat → T)
    (s1 : Stack T) (h : s.WF) (he : s.resize_with n f = some s1) : s1.WF := by
  by_cases hc : n ≤ s.cap
  · have hck : s.check_capacity n = true := by
      simp [Stack.check_capacity]; omega
    simp only [Stack.resize_with, hck, if_true, Option.some.injEq] at he
    split at he
    · exact he ▸ wf_truncate s n h
    · exact he ▸ wf_fill_loop n f (n - s.len) s 0 h hc
  · have hck : s.check_capacity n = false := by
      simp [Stack.check_capacity]; omega
    simp [Stack.resize_with, hck] at he

theorem wf_resize {T : Type} (s : Stack T) (n : Nat) (x : T) (s1 : Stack T)
    (h : s.WF) (he : s.resize n x = some s1) : s1.WF :=
  wf_resize_with s n (fun _ => x) s1 h he

theorem wf_extend_from_slice {T : Type} (s : Stack T) (l : List T)
    (h : s.WF) : (s.extend_from_slice l).1.WF := by
  induction l generalizing s with
  | nil => simpa [Stack.extend_from_slice] using h
  | cons x rest ih =>
    rw [Stack.extend_from_slice]
    by_cases hfull : s.is_full = true
    · have hpush : s.push x = (s, some x) := by simp [Stack.push, hfull]
      rw [hpush]
      exact h
    · have hfb : s.is_full = false := by simpa using hfull
      have hpush : s.push x
          = ({ s with data := s.data.set s.len (some x),
                      len := s.len + 1 }, none) := by
        simp [Stack.push, hfb]
      rw [hpush]
      have hw := wf_push s x h
      rw [hpush] at hw
      exact ih _ hw

theorem wf_extend_from_iter {T : Type} (s : Stack T) (l : List T)
    (h : s.WF) : (s.extend_from_iter l).1.WF := by
  induction l generalizing s with
  | nil =>
    rw [Stack.extend_from_iter]
    by_cases hfull : s.is_full = true
    · rw [if_pos hfull]
      exact h
    · rw [if_neg hfull]
      exact h
  | cons x rest ih =>
    rw [Stack.extend_from_iter]
    by_cases hfull : s.is_full = true
    · rw [if_pos hfull]
      exact h
    · rw [if_neg hfull]
      exact ih (s.push x).1 (wf_push s x h)

theorem wf_of_reachable {T : Type} (s : Stack T) (h : Reachable T s) :
    s.WF := by
  induction h with
  | new cap => exact wf_new cap
  | from_array l => exact wf_from_array l
  | using_array l n s he => exact wf_using_array l n s he
  | push s x _ ih => exact wf_push s x ih
  | pop s _ ih => exact wf_pop s ih
  | insert s i x p _ he ih => exact wf_insert s i x p ih he
  | remove s i p _ he ih => exact wf_remove s i p ih he
  | swap_remove s i p _ he ih => exact wf_swap_remove s i p ih he
  | clear s _ ih => exact wf_clear s ih
  | truncate s n _ ih => exact wf_truncate s n ih
  | resize_with s n f s1 _ he ih => exact wf_resize_with s n f s1 ih he
  | resize s n x s1 _ he ih => exact wf_resize s n x s1 ih he
  | extend_from_slice s l _ ih => exact wf_extend_from_slice s l ih
  | extend_from_iter s l _ ih => exact wf_extend_from_iter s l ih


/-- C8: in every state reachable from a safely constructed container by the
safe public operations (push, pop, insert, remove, swap_remove, clear,
truncate, resize / resize_with, extend_from_slice, extend_from_iter),
len <= cap holds and every slot with index < len holds an initialized value.
Slots with index >= len are never treated as live: by the data model,
liveness is exactly index < len (pop, truncate and clear leave the bytes of
dead slots in place, so no bit other than len marks validity). -/
theorem reachable_invariant {T : Type} (s : Stack T) (h : Reachable T s) :
    s.len ≤ s.cap ∧ ∀ i, i < s.len → (s.data.getD i none).isSome :=
  ⟨(wf_of_reachable s h).2.1, (wf_of_reachable s h).2.2⟩

/-- C8 witness: the invariant at the concrete reachable state obtained by
pushing 5 into the empty capacity-2 container. -/
theorem reachable_invariant_witness :
    ((Stack.new Nat 2).push 5).1.len ≤ ((Stack.new Nat 2).push 5).1.cap :=
  (reachable_invariant ((Stack.new Nat 2).push 5).1
    (Reachable.push (Stack.new Nat 2) 5 (Reachable.new 2))).1

end StackStack




